import Mathlib

/-!
# Verification of the NSM SDK trace/diff and interdomain path model

This development embeds, in Lean 4, the protobuf structural differ of the
`trace` package (`Diff`, `mapDiff`, `putToMappDif`, `diffField`) together with
the trace stage's `logRequest`/`logResponse`, and a model of path-segment
accumulation for interdomain requests.  Protobuf reflection values are
embedded as an inductive `Val` (primitives, messages, repeated lists, maps);
Go maps are embedded as association lists where assignment appends (so the
*last* binding of a key is the visible one, matching overwrite semantics)
and lookup takes the last binding.
-/

namespace Sdk

/-- Field kind: the Go code only distinguishes `protoreflect.MessageKind`
from every other kind. -/
inductive PKind where
  | messageKind
  | primitiveKind
deriving DecidableEq, Repr

/-- Field cardinality: the Go code only distinguishes
`protoreflect.Repeated` from the other cardinalities. -/
inductive PCardinality where
  | optional
  | repeated
deriving DecidableEq, Repr

/-- A protobuf field descriptor, with the attributes used by the differ:
`Name()`, `Kind()` and `Cardinality()`. -/
structure FieldDescriptor where
  name : String
  kind : PKind
  cardinality : PCardinality
deriving DecidableEq, Repr

/-- A protobuf reflection value (`protoreflect.Value`): a primitive scalar,
a message (list of field-descriptor/value pairs, one per descriptor field),
a repeated list, or a map with string-rendered keys. -/
inductive Val where
  | prim (s : String)
  | msg (fields : List (FieldDescriptor × Val))
  | list (elems : List Val)
  | vmap (entries : List (String × Val))

/-- A message is its list of populated fields, in descriptor order
(`Message.Get` is total on the descriptor's fields). -/
abbrev Msg := List (FieldDescriptor × Val)

mutual

/-- Embeds `reflect.DeepEqual` on the embedded values: structural equality. -/
def deepEqual : Val → Val → Bool
  | Val.prim a, Val.prim b => a == b
  | Val.msg a, Val.msg b => deepEqualFields a b
  | Val.list a, Val.list b => deepEqualList a b
  | Val.vmap a, Val.vmap b => deepEqualEntries a b
  | _, _ => false

/-- `reflect.DeepEqual` on message field lists. -/
def deepEqualFields : List (FieldDescriptor × Val) → List (FieldDescriptor × Val) → Bool
  | [], [] => true
  | (d1, v1) :: r1, (d2, v2) :: r2 => d1 == d2 && deepEqual v1 v2 && deepEqualFields r1 r2
  | _, _ => false

/-- `reflect.DeepEqual` on repeated-value lists. -/
def deepEqualList : List Val → List Val → Bool
  | [], [] => true
  | a :: r1, b :: r2 => deepEqual a b && deepEqualList r1 r2
  | _, _ => false

/-- `reflect.DeepEqual` on map entry lists. -/
def deepEqualEntries : List (String × Val) → List (String × Val) → Bool
  | [], [] => true
  | (k1, v1) :: r1, (k2, v2) :: r2 => k1 == k2 && deepEqual v1 v2 && deepEqualEntries r1 r2
  | _, _ => false

end

mutual

theorem deepEqual_refl (v : Val) : deepEqual v v = true := by
  cases v with
  | prim s => simp [deepEqual]
  | msg fs => simpa [deepEqual] using deepEqualFields_refl fs
  | list xs => simpa [deepEqual] using deepEqualList_refl xs
  | vmap es => simpa [deepEqual] using deepEqualEntries_refl es

theorem deepEqualFields_refl (l : List (FieldDescriptor × Val)) : deepEqualFields l l = true := by
  match l with
  | [] => simp [deepEqualFields]
  | (d, v) :: rest =>
    simp [deepEqualFields, deepEqual_refl v, deepEqualFields_refl rest]

theorem deepEqualList_refl (l : List Val) : deepEqualList l l = true := by
  match l with
  | [] => simp [deepEqualList]
  | a :: rest => simp [deepEqualList, deepEqual_refl a, deepEqualList_refl rest]

theorem deepEqualEntries_refl (l : List (String × Val)) : deepEqualEntries l l = true := by
  match l with
  | [] => simp [deepEqualEntries]
  | (k, v) :: rest => simp [deepEqualEntries, deepEqual_refl v, deepEqualEntries_refl rest]

end

mutual

theorem deepEqual_eq (a b : Val) : deepEqual a b = true → a = b := by
  cases a <;> cases b <;> simp [deepEqual]
  case msg.msg x y => exact fun h => deepEqualFields_eq x y h
  case list.list x y => exact fun h => deepEqualList_eq x y h
  case vmap.vmap x y => exact fun h => deepEqualEntries_eq x y h

theorem deepEqualFields_eq (a b : List (FieldDescriptor × Val)) :
    deepEqualFields a b = true → a = b := by
  match a, b with
  | [], [] => intro; rfl
  | [], _ :: _ => intro h; simp [deepEqualFields] at h
  | _ :: _, [] => intro h; simp [deepEqualFields] at h
  | (d1, v1) :: r1, (d2, v2) :: r2 =>
    intro h
    simp only [deepEqualFields, Bool.and_eq_true, beq_iff_eq] at h
    obtain ⟨⟨h1, h2⟩, h3⟩ := h
    have hv := deepEqual_eq v1 v2 h2
    have hr := deepEqualFields_eq r1 r2 h3
    simp_all

theorem deepEqualList_eq (a b : List Val) : deepEqualList a b = true → a = b := by
  match a, b with
  | [], [] => intro; rfl
  | [], _ :: _ => intro h; simp [deepEqualList] at h
  | _ :: _, [] => intro h; simp [deepEqualList] at h
  | x :: r1, y :: r2 =>
    intro h
    simp only [deepEqualList, Bool.and_eq_true] at h
    obtain ⟨h1, h2⟩ := h
    have hv := deepEqual_eq x y h1
    have hr := deepEqualList_eq r1 r2 h2
    simp_all

theorem deepEqualEntries_eq (a b : List (String × Val)) :
    deepEqualEntries a b = true → a = b := by
  match a, b with
  | [], [] => intro; rfl
  | [], _ :: _ => intro h; simp [deepEqualEntries] at h
  | _ :: _, [] => intro h; simp [deepEqualEntries] at h
  | (k1, v1) :: r1, (k2, v2) :: r2 =>
    intro h
    simp only [deepEqualEntries, Bool.and_eq_true, beq_iff_eq] at h
    obtain ⟨⟨h1, h2⟩, h3⟩ := h
    have hv := deepEqual_eq v1 v2 h2
    have hr := deepEqualEntries_eq r1 r2 h3
    simp_all

end

theorem deepEqual_iff (a b : Val) : deepEqual a b = true ↔ a = b := by
  constructor
  · exact deepEqual_eq a b
  · rintro rfl; exact deepEqual_refl a

instance : DecidableEq Val := fun a b =>
  decidable_of_iff (deepEqual a b = true) (deepEqual_iff a b)

/-- A value stored into a diff mapping (`interface{}` in the Go code): a raw
protobuf value (`newValue` / `msg.Interface()`), a rendered string
(`value.String()` or the `"="` marker), a nested diff mapping, or `nil`. -/
inductive DiffOut where
  | raw (v : Val)
  | str (s : String)
  | dmap (entries : List (String × DiffOut))
  | null

/-- `protoreflect.Value.String()`: primitives render as themselves; the
other shapes never reach `String()` on the paths the claims exercise. -/
def valString : Val → String
  | Val.prim s => s
  | Val.msg _ => "<message>"
  | Val.list _ => "<list>"
  | Val.vmap _ => "<map>"

/-- `putToMappDif`: the value stored under `key` — the message itself
(`msg.Interface()`) when the value is a message, else `value.String()`.
(The Go function mutates `resultMap`; here the computed entry value is
returned and the caller places it under its key.) -/
def putToMappDif (value : Val) : DiffOut :=
  match value with
  | Val.msg fields => DiffOut.raw (Val.msg fields)
  | v => DiffOut.str (valString v)

/-- Go map read `m[key]` with its `ok` flag, on an association list where
assignment appends (so the last binding wins). -/
def mapGet (m : List (String × Val)) (key : String) : Option Val :=
  match m with
  | [] => none
  | (k, v) :: rest => match mapGet rest key with
    | some r => some r
    | none => if k = key then some v else none

/-- `Message.Get(descriptor)`, partial form: the value bound to the
descriptor, if any. -/
def msgFind (m : Msg) (descriptor : FieldDescriptor) : Option Val :=
  match m with
  | [] => none
  | (d, v) :: rest => if d = descriptor then some v else msgFind rest descriptor

/-- `Message.Get(descriptor)`: total on the message's descriptor fields;
returns the type's zero value when the field is unbound. -/
def msgGet (m : Msg) (descriptor : FieldDescriptor) : Val :=
  (msgFind m descriptor).getD (Val.prim "")

/-- The loop `for i := 0; i < list.Len(); i++ { m[strconv.Itoa(i)] = list.Get(i) }`:
converts a repeated list to a map keyed by the decimal string of the index. -/
def toIndexMap (elems : List Val) (start : Nat) : List (String × Val) :=
  match elems with
  | [] => []
  | x :: rest => (toString start, x) :: toIndexMap rest (start + 1)

mutual

/-- Structural size of a value, the termination measure of the differ. -/
def valSize : Val → Nat
  | Val.prim _ => 1
  | Val.msg fs => 1 + fieldsSize fs
  | Val.list xs => 1 + listSize xs
  | Val.vmap es => 1 + entriesSize es

/-- Structural size of a message field list. -/
def fieldsSize : List (FieldDescriptor × Val) → Nat
  | [] => 0
  | (_, v) :: rest => 3 + valSize v + fieldsSize rest

/-- Structural size of a repeated-value list. -/
def listSize : List Val → Nat
  | [] => 0
  | v :: rest => 1 + valSize v + listSize rest

/-- Structural size of a map entry list. -/
def entriesSize : List (String × Val) → Nat
  | [] => 0
  | (_, v) :: rest => 1 + valSize v + entriesSize rest

end

/-- Total size of the values of a map, the termination measure for the
recursion through map entries. -/
def valsSize (entries : List (String × Val)) : Nat :=
  match entries with
  | [] => 0
  | (_, v) :: rest => valSize v + valsSize rest

/-- Construction of `originMap`/`targetMap` in `Diff`'s repeated branch:
lists are converted with `toIndexMap`, maps are ranged over into string-keyed
maps (the identity here, as `Val.vmap` entries are already string-keyed).
When `newValue` is neither (ill-typed input, impossible for two messages of
one descriptor) both maps are empty. -/
def originTargetMaps (oldValue newValue : Val) :
    List (String × Val) × List (String × Val) :=
  match newValue with
  | Val.list elems =>
    match oldValue with
    | Val.list oldElems => (toIndexMap oldElems 0, toIndexMap elems 0)
    | _ => ([], toIndexMap elems 0)
  | Val.vmap entries =>
    match oldValue with
    | Val.vmap oldEntries => (oldEntries, entries)
    | _ => ([], entries)
  | _ => ([], [])

/-- The second loop of `mapDiff`: keys of `originMap` with no new value are
marked as deleted under `"-" + key`. Returns the entries together with the
number of `lchanged` increments of this loop. -/
def mapDeleted (originMap targetMap : List (String × Val)) :
    List (String × DiffOut) × Nat :=
  match originMap with
  | [] => ([], 0)
  | (key, value) :: rest =>
    let r := mapDeleted rest targetMap
    match mapGet targetMap key with
    | none => (("-" ++ key, putToMappDif value) :: r.1, r.2 + 1)
    | some _ => r

theorem one_le_valSize (v : Val) : 1 ≤ valSize v := by
  cases v <;> simp [valSize]

theorem valsSize_toIndexMap (xs : List Val) (s : Nat) :
    valsSize (toIndexMap xs s) ≤ listSize xs := by
  induction xs generalizing s with
  | nil => simp [toIndexMap, valsSize]
  | cons x rest ih =>
    have := ih (s + 1)
    simp only [toIndexMap, valsSize, listSize]
    omega

theorem valsSize_le_entriesSize (es : List (String × Val)) :
    valsSize es ≤ entriesSize es := by
  induction es with
  | nil => simp [valsSize]
  | cons e rest ih =>
    obtain ⟨k, v⟩ := e
    simp only [valsSize, entriesSize]
    omega

theorem valSize_le_valsSize_of_mem {es : List (String × Val)} {k : String} {v : Val}
    (h : (k, v) ∈ es) : valSize v ≤ valsSize es := by
  induction es with
  | nil => simp at h
  | cons e rest ih =>
    obtain ⟨k2, v2⟩ := e
    rcases List.mem_cons.mp h with h1 | h1
    · cases h1
      simp only [valsSize]
      omega
    · have := ih h1
      have := one_le_valSize v2
      simp only [valsSize]
      omega

theorem originTargetMaps_snd_lt (o n : Val) :
    valsSize (originTargetMaps o n).2 < valSize n := by
  cases n with
  | prim s => simp [originTargetMaps, valsSize, valSize]
  | msg fs => simp [originTargetMaps, valsSize, valSize]
  | list elems =>
    have h := valsSize_toIndexMap elems 0
    cases o <;> simp only [originTargetMaps, valSize] <;> omega
  | vmap entries =>
    have h := valsSize_le_entriesSize entries
    have h2 : valsSize ([] : List (String × Val)) = 0 := rfl
    cases o <;> simp only [originTargetMaps, valSize] <;> omega

mutual

/-- `Diff` - calculate a protobuf message diff.  Iterates the fields of the
new message's descriptor; repeated fields go through `mapDiff` on the
`originMap`/`targetMap` conversion, singular fields through `diffField`.
Returns the diff mapping and whether any changes were recorded
(`changes > 0`). -/
def Diff (oldMessage newMessage : Msg) : List (String × DiffOut) × Bool :=
  let r := diffFields oldMessage newMessage
  (r.1, decide (0 < r.2))
termination_by fieldsSize newMessage + 1
decreasing_by
  omega

/-- The field loop of `Diff`: one iteration per descriptor field of the new
message, accumulating the `diffMessage` entries (keyed by field name, in
field order) and the `changes` counter. -/
def diffFields (oldMessage : Msg) (fields : List (FieldDescriptor × Val)) :
    List (String × DiffOut) × Nat :=
  match fields with
  | [] => ([], 0)
  | (descriptor, newValue) :: rest =>
    if descriptor.cardinality = PCardinality.repeated then
      let maps := originTargetMaps (msgGet oldMessage descriptor) newValue
      let mr := mapDiff descriptor maps.1 maps.2
      let r := diffFields oldMessage rest
      if mr.2 then ((descriptor.name, DiffOut.dmap mr.1) :: r.1, r.2 + 1) else r
    else
      let dr := diffField descriptor (msgGet oldMessage descriptor) newValue
      let r := diffFields oldMessage rest
      if dr.2 then ((descriptor.name, dr.1) :: r.1, r.2 + 1) else r
termination_by fieldsSize fields
decreasing_by
  · rename_i fd _hc
    have h := originTargetMaps_snd_lt (msgGet oldMessage fd) v
    simp only [fieldsSize]
    omega
  · simp only [fieldsSize]
    have := one_le_valSize v
    omega
  · simp only [fieldsSize]
    omega
  · simp only [fieldsSize]
    have := one_le_valSize v
    omega

/-- `mapDiff`: per-key diff of two string-keyed maps — changed/added keys
from the target loop, then deleted keys from the origin loop; the field is
changed iff `lchanged > 0`. -/
def mapDiff (descriptor : FieldDescriptor) (originMap targetMap : List (String × Val)) :
    List (String × DiffOut) × Bool :=
  let r1 := mapChangedEntries descriptor originMap targetMap
  let r2 := mapDeleted originMap targetMap
  (r1.1 ++ r2.1, decide (0 < r1.2 + r2.2))
termination_by valsSize targetMap + 3
decreasing_by
  omega

/-- The first loop of `mapDiff`: for each key of `targetMap`, a key with no
old value is stored under `"+" + key` via `putToMappDif`; a key present in
both maps is stored under the bare key iff `diffField` reports a change. -/
def mapChangedEntries (descriptor : FieldDescriptor) (originMap targetMap : List (String × Val)) :
    List (String × DiffOut) × Nat :=
  match targetMap with
  | [] => ([], 0)
  | (key, value) :: rest =>
    let r := mapChangedEntries descriptor originMap rest
    match mapGet originMap key with
    | none => (("+" ++ key, putToMappDif value) :: r.1, r.2 + 1)
    | some oldVal =>
      let dr := diffField descriptor oldVal value
      if dr.2 then ((key, dr.1) :: r.1, r.2 + 1) else r
termination_by valsSize targetMap + 2
decreasing_by
  · simp only [valsSize]
    have := one_le_valSize v
    omega
  · simp only [valsSize]
    omega

/-- `diffField`: message-kind fields recurse through `Diff` (with the `"="`
marker when the nested diff is empty, the new message when the old value is
not a message, and the old message when the new value is not a message);
all other values compare by `reflect.DeepEqual`, storing the new value on
inequality. -/
def diffField (descriptor : FieldDescriptor) (oldValue newValue : Val) : DiffOut × Bool :=
  if descriptor.kind = PKind.messageKind then
    match newValue with
    | Val.msg newFields =>
      match oldValue with
      | Val.msg oldFields =>
        let r := Diff oldFields newFields
        if r.2 then (DiffOut.dmap r.1, true) else (DiffOut.str "=", false)
      | _ => (DiffOut.raw (Val.msg newFields), true)
    | _ =>
      match oldValue with
      | Val.msg oldFields => (DiffOut.raw (Val.msg oldFields), true)
      | _ =>
        if !deepEqual oldValue newValue then (DiffOut.raw newValue, true)
        else (DiffOut.null, false)
  else
    if !deepEqual oldValue newValue then (DiffOut.raw newValue, true)
    else (DiffOut.null, false)
termination_by valSize newValue + 1
decreasing_by
  simp only [valSize]
  omega

end

/-- Decimal digit value of a digit character, inverse of `Nat.digitChar`
on digits `0`-`9`. -/
def digitVal (c : Char) : Nat :=
  if c = '0' then 0 else
  if c = '1' then 1 else
  if c = '2' then 2 else
  if c = '3' then 3 else
  if c = '4' then 4 else
  if c = '5' then 5 else
  if c = '6' then 6 else
  if c = '7' then 7 else
  if c = '8' then 8 else
  if c = '9' then 9 else 10

theorem digitVal_digitChar {d : Nat} (h : d < 10) : digitVal (Nat.digitChar d) = d := by
  interval_cases d <;> rfl

/-- Decimal digit characters of `n`, most significant first. -/
def natDigits (n : Nat) : List Char :=
  if n < 10 then [Nat.digitChar n]
  else natDigits (n / 10) ++ [Nat.digitChar (n % 10)]
termination_by n
decreasing_by
  rename_i h
  exact Nat.div_lt_self (by omega) (by omega)

theorem natDigits_def (n : Nat) :
    natDigits n =
      if n < 10 then [Nat.digitChar n]
      else natDigits (n / 10) ++ [Nat.digitChar (n % 10)] := by
  rw [natDigits]

theorem natDigits_ne_nil (n : Nat) : natDigits n ≠ [] := by
  rw [natDigits]
  split <;> simp

theorem toDigitsCore_eq_natDigits (fuel : Nat) :
    ∀ (n : Nat) (ds : List Char), n < fuel →
      Nat.toDigitsCore 10 fuel n ds = natDigits n ++ ds := by
  induction fuel with
  | zero => intro n ds h; omega
  | succ fuel ih =>
    intro n ds h
    by_cases h0 : n / 10 = 0
    · have hn : n < 10 := by omega
      simp only [Nat.toDigitsCore, h0, if_true]
      rw [natDigits_def, if_pos hn, Nat.mod_eq_of_lt hn]
      simp
    · have hn : ¬ n < 10 := by omega
      have hlt : n / 10 < fuel := by
        have := Nat.div_lt_self (by omega : 0 < n) (by omega : 1 < 10)
        omega
      simp only [Nat.toDigitsCore, h0, if_false]
      rw [ih (n / 10) _ hlt, natDigits_def n, if_neg hn]
      simp

theorem natDigits_inj : ∀ m n : Nat, natDigits m = natDigits n → m = n := by
  intro m
  induction m using Nat.strong_induction_on with
  | _ m ih =>
    intro n h
    by_cases hm : m < 10 <;> by_cases hn : n < 10
    · rw [natDigits_def m, if_pos hm, natDigits_def n, if_pos hn] at h
      have := congrArg digitVal (List.head_eq_of_cons_eq h)
      rwa [digitVal_digitChar hm, digitVal_digitChar hn] at this
    · exfalso
      rw [natDigits_def m, if_pos hm, natDigits_def n, if_neg hn] at h
      have h1 := congrArg List.length h
      simp only [List.length_append, List.length_cons, List.length_nil] at h1
      have h2 : (natDigits (n / 10)).length = 0 := by omega
      exact natDigits_ne_nil _ (List.length_eq_zero.mp h2)
    · exfalso
      rw [natDigits_def m, if_neg hm, natDigits_def n, if_pos hn] at h
      have h1 := congrArg List.length h
      simp only [List.length_append, List.length_cons, List.length_nil] at h1
      have h2 : (natDigits (m / 10)).length = 0 := by omega
      exact natDigits_ne_nil _ (List.length_eq_zero.mp h2)
    · rw [natDigits_def m, if_neg hm, natDigits_def n, if_neg hn] at h
      have h2 := List.append_inj' h rfl
      obtain ⟨hl, hr⟩ := h2
      have hdiv : m / 10 = n / 10 :=
        ih (m / 10) (Nat.div_lt_self (by omega) (by omega)) (n / 10) hl
      have hmod : m % 10 = n % 10 := by
        have := congrArg digitVal (List.head_eq_of_cons_eq hr)
        rwa [digitVal_digitChar (Nat.mod_lt _ (by omega)),
          digitVal_digitChar (Nat.mod_lt _ (by omega))] at this
      omega

theorem natRepr_inj {m n : Nat} (h : Nat.repr m = Nat.repr n) : m = n := by
  apply natDigits_inj
  have hm := toDigitsCore_eq_natDigits (m + 1) m [] (by omega)
  have hn := toDigitsCore_eq_natDigits (n + 1) n [] (by omega)
  unfold Nat.repr Nat.toDigits at h
  rw [hm, hn] at h
  simpa using congrArg String.data h

theorem toString_nat_inj {m n : Nat} (h : toString m = toString n) : m = n :=
  natRepr_inj h

/-- `mapGet` on an index map built from a list: key `toString i` is bound to
element `i - s` of the list, when present. -/
theorem mapGet_toIndexMap (xs : List Val) (s i : Nat) :
    mapGet (toIndexMap xs s) (toString i) =
      if s ≤ i then xs.get? (i - s) else none := by
  induction xs generalizing s with
  | nil => simp [toIndexMap, mapGet]
  | cons x rest ih =>
    simp only [toIndexMap, mapGet, ih (s + 1)]
    by_cases h1 : s + 1 ≤ i
    · rw [if_pos h1]
      have h0 : s ≤ i := by omega
      rw [if_pos h0]
      have his : i - s = (i - s - 1) + 1 := by omega
      rw [his]
      simp only [List.get?]
      have : i - s - 1 = i - (s + 1) := by omega
      rw [this]
      cases rest.get? (i - (s + 1)) with
      | none =>
        simp only []
        have hne : ¬ toString s = toString i := fun hc => by
          have := toString_nat_inj hc
          omega
        rw [if_neg hne]
      | some r => simp
    · rw [if_neg h1]
      by_cases h2 : s = i
      · subst h2
        rw [if_pos (le_refl s)]
        simp
      · have hne : ¬ toString s = toString i := fun hc => by
          have := toString_nat_inj hc
          omega
        rw [if_neg hne]
        have h3 : ¬ s ≤ i := by omega
        rw [if_neg h3]

mutual

/-- Well-formedness of an embedded value: the image of real protobuf data —
every map is self-consistent (each entry is what lookup of its key finds,
i.e. no duplicate keys with conflicting values) and so is every nested
message. -/
def wfVal : Val → Bool
  | Val.prim _ => true
  | Val.msg fs => wfFields fs fs
  | Val.list xs => wfList xs
  | Val.vmap es => wfEntries es es
termination_by v => valSize v + 1
decreasing_by
  · simp only [valSize]; omega
  · simp only [valSize]; omega
  · simp only [valSize]; omega

/-- Each field pair of `l` is retrievable from the whole message `whole`,
and its value is well-formed. -/
def wfFields (whole : Msg) : List (FieldDescriptor × Val) → Bool
  | [] => true
  | (fd, v) :: rest => decide (msgFind whole fd = some v) && wfVal v && wfFields whole rest
termination_by l => fieldsSize l + 1
decreasing_by
  · simp only [fieldsSize]; omega
  · simp only [fieldsSize]; omega

/-- Every element of a repeated list is well-formed. -/
def wfList : List Val → Bool
  | [] => true
  | v :: rest => wfVal v && wfList rest
termination_by l => listSize l + 1
decreasing_by
  · simp only [listSize]; omega
  · simp only [listSize]; omega

/-- Each entry of `l` is retrievable from the whole map `whole`, and its
value is well-formed. -/
def wfEntries (whole : List (String × Val)) : List (String × Val) → Bool
  | [] => true
  | (k, v) :: rest => decide (mapGet whole k = some v) && wfVal v && wfEntries whole rest
termination_by l => entriesSize l + 1
decreasing_by
  · simp only [entriesSize]; omega
  · simp only [entriesSize]; omega

end

/-- A well-formed message: its field list is self-consistent. -/
def wfMsg (m : Msg) : Bool := wfFields m m

theorem wfFields_forall {whole : Msg} {l : List (FieldDescriptor × Val)}
    (h : wfFields whole l = true) :
    ∀ p ∈ l, msgFind whole p.1 = some p.2 ∧ wfVal p.2 = true := by
  induction l with
  | nil => simp
  | cons e rest ih =>
    obtain ⟨fd, v⟩ := e
    simp only [wfFields, Bool.and_eq_true, decide_eq_true_eq] at h
    obtain ⟨⟨h1, h2⟩, h3⟩ := h
    intro p hp
    rcases List.mem_cons.mp hp with hp | hp
    · subst hp; exact ⟨h1, h2⟩
    · exact ih h3 p hp

theorem wfList_mem {xs : List Val} (h : wfList xs = true) {v : Val} (hv : v ∈ xs) :
    wfVal v = true := by
  induction xs with
  | nil => simp at hv
  | cons x rest ih =>
    simp only [wfList, Bool.and_eq_true] at h
    rcases List.mem_cons.mp hv with hv | hv
    · subst hv; exact h.1
    · exact ih h.2 hv

theorem wfEntries_forall {whole l : List (String × Val)}
    (h : wfEntries whole l = true) :
    ∀ p ∈ l, mapGet whole p.1 = some p.2 ∧ wfVal p.2 = true := by
  induction l with
  | nil => simp
  | cons e rest ih =>
    obtain ⟨k, v⟩ := e
    simp only [wfEntries, Bool.and_eq_true, decide_eq_true_eq] at h
    obtain ⟨⟨h1, h2⟩, h3⟩ := h
    intro p hp
    rcases List.mem_cons.mp hp with hp | hp
    · subst hp; exact ⟨h1, h2⟩
    · exact ih h3 p hp

/-- Membership in an index map determines an index. -/
theorem toIndexMap_mem {xs : List Val} {s : Nat} {k : String} {w : Val}
    (h : (k, w) ∈ toIndexMap xs s) :
    ∃ j, k = toString (s + j) ∧ xs.get? j = some w := by
  induction xs generalizing s with
  | nil => simp [toIndexMap] at h
  | cons x rest ih =>
    rw [toIndexMap] at h
    rcases List.mem_cons.mp h with h1 | h1
    · refine ⟨0, ?_, ?_⟩
      · have := congrArg Prod.fst h1
        simpa using this
      · have := congrArg Prod.snd h1
        simpa using this.symm
    · obtain ⟨j, hk, hj⟩ := ih h1
      refine ⟨j + 1, ?_, by simpa using hj⟩
      rw [hk]
      congr 1
      omega

/-- Index maps are self-consistent: every entry is what lookup finds. -/
theorem mapGet_toIndexMap_self {xs : List Val} {s : Nat} {k : String} {w : Val}
    (h : (k, w) ∈ toIndexMap xs s) : mapGet (toIndexMap xs s) k = some w := by
  obtain ⟨j, rfl, hj⟩ := toIndexMap_mem h
  rw [mapGet_toIndexMap, if_pos (by omega)]
  simpa [Nat.add_sub_cancel_left] using hj

/-- Values of an index map are elements of the list. -/
theorem toIndexMap_val_mem {xs : List Val} {s : Nat} {k : String} {w : Val}
    (h : (k, w) ∈ toIndexMap xs s) : w ∈ xs := by
  obtain ⟨j, _, hj⟩ := toIndexMap_mem h
  exact List.get?_mem hj

/-- The deletion loop records nothing when every origin key is still
present in the target. -/
theorem mapDeleted_of_present {originMap targetMap : List (String × Val)}
    (h : ∀ p ∈ originMap, (mapGet targetMap p.1).isSome) :
    mapDeleted originMap targetMap = ([], 0) := by
  induction originMap with
  | nil => rfl
  | cons e rest ih =>
    obtain ⟨k, v⟩ := e
    have h1 := h (k, v) (by simp)
    rw [mapDeleted, ih (fun p hp => h p (List.mem_cons_of_mem _ hp))]
    cases hg : mapGet targetMap k with
    | none => rw [hg] at h1; simp at h1
    | some w => simp

mutual

theorem diffField_self (descriptor : FieldDescriptor) (v : Val) (h : wfVal v = true) :
    (diffField descriptor v v).2 = false := by
  by_cases hk : descriptor.kind = PKind.messageKind
  · cases v with
    | msg fs =>
      have hd : diffFields fs fs = ([], 0) := by
        apply diffFields_self
        intro p hp
        have hw := wfFields_forall (by simpa [wfVal] using h) p hp
        exact ⟨by simp [msgGet, hw.1], hw.2⟩
      simp [diffField, hk, Diff, hd]
    | prim s => simp [diffField, hk, deepEqual_refl]
    | list xs => simp [diffField, hk, deepEqual_refl]
    | vmap es => simp [diffField, hk, deepEqual_refl]
  · cases v <;> simp [diffField, hk, deepEqual_refl]
termination_by valSize v + 1
decreasing_by
  all_goals subst_vars
  all_goals (simp only [valSize, fieldsSize]; omega)

theorem diffFields_self (o : Msg) (fields : List (FieldDescriptor × Val))
    (h : ∀ p ∈ fields, msgGet o p.1 = p.2 ∧ wfVal p.2 = true) :
    diffFields o fields = ([], 0) := by
  match fields with
  | [] => simp [diffFields]
  | (fd, v) :: rest =>
    have hh := h (fd, v) (List.mem_cons_self _ _)
    have hr : diffFields o rest = ([], 0) :=
      diffFields_self o rest (fun p hp => h p (List.mem_cons_of_mem _ hp))
    by_cases hc : fd.cardinality = PCardinality.repeated
    · have hmaps : mapDiff fd (originTargetMaps (msgGet o fd) v).1
          (originTargetMaps (msgGet o fd) v).2 = ([], false) := by
        rw [hh.1]
        cases v with
        | prim s => simp [originTargetMaps, mapDiff, mapChangedEntries, mapDeleted]
        | msg fs => simp [originTargetMaps, mapDiff, mapChangedEntries, mapDeleted]
        | list xs =>
          have hwl : wfList xs = true := by simpa [wfVal] using hh.2
          have h1 : mapChangedEntries fd (toIndexMap xs 0) (toIndexMap xs 0) = ([], 0) := by
            apply mapChangedEntries_self
            intro p hp
            obtain ⟨k, w⟩ := p
            exact ⟨mapGet_toIndexMap_self hp, wfList_mem hwl (toIndexMap_val_mem hp)⟩
          have h2 : mapDeleted (toIndexMap xs 0) (toIndexMap xs 0) = ([], 0) := by
            apply mapDeleted_of_present
            intro p hp
            obtain ⟨k, w⟩ := p
            rw [mapGet_toIndexMap_self hp]
            rfl
          simp [originTargetMaps, mapDiff, h1, h2]
        | vmap es =>
          have hwe : wfEntries es es = true := by simpa [wfVal] using hh.2
          have h1 : mapChangedEntries fd es es = ([], 0) := by
            apply mapChangedEntries_self
            intro p hp
            exact (wfEntries_forall hwe) p hp
          have h2 : mapDeleted es es = ([], 0) := by
            apply mapDeleted_of_present
            intro p hp
            rw [((wfEntries_forall hwe) p hp).1]
            rfl
          simp [originTargetMaps, mapDiff, h1, h2]
      simp only [diffFields, hc, if_true, hmaps, hr]
      simp
    · have hf : (diffField fd (msgGet o fd) v).2 = false := by
        rw [hh.1]
        exact diffField_self fd v hh.2
      simp only [diffFields, hc, if_false, hr]
      simp [hf]
termination_by fieldsSize fields
decreasing_by
  all_goals subst_vars
  all_goals (try have h1 := valsSize_toIndexMap xs 0)
  all_goals (try have h2 := valsSize_le_entriesSize es)
  all_goals (simp only [fieldsSize, valSize, valsSize]; omega)

theorem mapChangedEntries_self (descriptor : FieldDescriptor)
    (origin target : List (String × Val))
    (h : ∀ p ∈ target, mapGet origin p.1 = some p.2 ∧ wfVal p.2 = true) :
    mapChangedEntries descriptor origin target = ([], 0) := by
  match target with
  | [] => simp [mapChangedEntries]
  | (k, v) :: rest =>
    have hh := h (k, v) (List.mem_cons_self _ _)
    have hr : mapChangedEntries descriptor origin rest = ([], 0) :=
      mapChangedEntries_self descriptor origin rest
        (fun p hp => h p (List.mem_cons_of_mem _ hp))
    have hf : (diffField descriptor v v).2 = false := diffField_self descriptor v hh.2
    simp only [mapChangedEntries, hr, hh.1]
    simp [hf]
termination_by valsSize target + 2
decreasing_by
  all_goals (try have h3 := one_le_valSize v)
  all_goals (simp only [valsSize, valSize]; omega)

end

theorem Diff_self_aux (m : Msg) (h : wfMsg m = true) : Diff m m = ([], false) := by
  have hd : diffFields m m = ([], 0) := by
    apply diffFields_self
    intro p hp
    have hw := wfFields_forall (by simpa [wfMsg] using h) p hp
    exact ⟨by simp [msgGet, hw.1], hw.2⟩
  simp [Diff, hd]

/-- A sample well-formed message exercising every field shape: scalar,
repeated list, map, and nested message. -/
def exampleMsg : Msg :=
  [(⟨"name", PKind.primitiveKind, PCardinality.optional⟩, Val.prim "abc"),
   (⟨"segments", PKind.primitiveKind, PCardinality.repeated⟩,
      Val.list [Val.prim "a", Val.prim "b"]),
   (⟨"labels", PKind.primitiveKind, PCardinality.repeated⟩,
      Val.vmap [("k1", Val.prim "v1"), ("k2", Val.prim "v2")]),
   (⟨"ctx", PKind.messageKind, PCardinality.optional⟩,
      Val.msg [(⟨"inner", PKind.primitiveKind, PCardinality.optional⟩, Val.prim "x")])]

/-- C1: For every protobuf message `m`, `Diff(m, m)` returns the empty
mapping and reports no changes (the changed flag is `false`). -/
theorem diff_self_empty (m : Msg) (h : wfMsg m = true) : Diff m m = ([], false) :=
  Diff_self_aux m h

/-- Witness for C1 at a concrete message with scalar, repeated, map and
nested-message fields. -/
theorem diff_self_empty_witness :
    wfMsg exampleMsg = true ∧ Diff exampleMsg exampleMsg = ([], false) :=
  ⟨by simp +decide [wfMsg, wfFields, wfVal, wfList, wfEntries, msgFind, mapGet, exampleMsg],
   diff_self_empty exampleMsg
     (by simp +decide [wfMsg, wfFields, wfVal, wfList, wfEntries, msgFind, mapGet, exampleMsg])⟩

/-- Go map read on a diff mapping (`map[string]interface{}`), last binding
wins. -/
def dLookup (m : List (String × DiffOut)) (key : String) : Option DiffOut :=
  match m with
  | [] => none
  | (k, v) :: rest => match dLookup rest key with
    | some r => some r
    | none => if k = key then some v else none

/-- On a non-message-kind field, `diffField` is exactly the
`reflect.DeepEqual` comparison, storing the new value on inequality. -/
theorem diffField_not_message (descriptor : FieldDescriptor)
    (hk : descriptor.kind ≠ PKind.messageKind) (o n : Val) :
    diffField descriptor o n =
      if deepEqual o n then (DiffOut.null, false) else (DiffOut.raw n, true) := by
  cases hde : deepEqual o n <;> cases n <;> cases o <;> simp [diffField, hk, hde]

/-- Lookup skips an entry whose key differs. -/
theorem dLookup_cons_ne {k key : String} {v : DiffOut} {rest : List (String × DiffOut)}
    (h : k ≠ key) : dLookup ((k, v) :: rest) key = dLookup rest key := by
  simp only [dLookup]
  cases hx : dLookup rest key <;> simp [h]

/-- Keys of the diff mapping are names of the iterated fields. -/
theorem diffFields_lookup_none (o : Msg) (fields : List (FieldDescriptor × Val))
    (key : String) (hname : ∀ p ∈ fields, p.1.name ≠ key) :
    dLookup (diffFields o fields).1 key = none := by
  induction fields with
  | nil => simp [diffFields, dLookup]
  | cons e rest ih =>
    obtain ⟨d, v⟩ := e
    have hd : d.name ≠ key := hname (d, v) (List.mem_cons_self _ _)
    have hr := ih (fun p hp => hname p (List.mem_cons_of_mem _ hp))
    by_cases hc : d.cardinality = PCardinality.repeated <;>
      simp only [diffFields, hc, if_true, if_false] <;>
      split <;> simp [dLookup, hr, hd]

/-- Scalar-field characterisation of the `diffFields` loop. -/
theorem diffFields_scalar (o : Msg) (fields : List (FieldDescriptor × Val))
    (fd : FieldDescriptor) (vb : Val)
    (hmem : (fd, vb) ∈ fields)
    (hnodup : (fields.map (fun p => p.1.name)).Nodup)
    (hk : fd.kind ≠ PKind.messageKind)
    (hc : fd.cardinality ≠ PCardinality.repeated) :
    dLookup (diffFields o fields).1 fd.name =
      if msgGet o fd = vb then none else some (DiffOut.raw vb) := by
  induction fields with
  | nil => simp at hmem
  | cons e rest ih =>
    obtain ⟨d, v⟩ := e
    simp only [List.map_cons, List.nodup_cons] at hnodup
    rcases List.mem_cons.mp hmem with hh | hh
    · injection hh with h1 h2
      subst h1
      subst h2
      have hnone : dLookup (diffFields o rest).1 fd.name = none := by
        apply diffFields_lookup_none
        intro p hp hpk
        exact hnodup.1 (hpk ▸ List.mem_map_of_mem (fun q => q.1.name) hp)
      simp only [diffFields, hc, if_false]
      rw [diffField_not_message fd hk]
      by_cases he : msgGet o fd = vb
      · rw [if_pos ((deepEqual_iff _ _).mpr he)]
        simp [hnone, he]
      · rw [if_neg (fun hx => he ((deepEqual_iff _ _).mp hx))]
        simp [dLookup, hnone, he]
    · have hdn : d.name ≠ fd.name := by
        intro hx
        exact hnodup.1 (hx ▸ List.mem_map_of_mem (fun q => q.1.name) hh)
      have hr := ih hh hnodup.2
      by_cases hcd : d.cardinality = PCardinality.repeated <;>
        simp only [diffFields, hcd, if_true, if_false] <;> split <;>
        first
          | rw [dLookup_cons_ne hdn, hr]
          | exact hr

/-- C2: for two messages of one descriptor and a scalar (non-repeated,
non-message) field `f`, `Diff(a, b)` contains an entry for `f` iff `a.f`
differs from `b.f`, and that entry holds the new value `b.f`. -/
theorem diff_scalar_field (a b : Msg) (fd : FieldDescriptor) (vb : Val)
    (hmem : (fd, vb) ∈ b)
    (hnodup : (b.map (fun p => p.1.name)).Nodup)
    (hk : fd.kind ≠ PKind.messageKind)
    (hc : fd.cardinality ≠ PCardinality.repeated) :
    dLookup (Diff a b).1 fd.name =
      if msgGet a fd = vb then none else some (DiffOut.raw vb) := by
  have h := diffFields_scalar a b fd vb hmem hnodup hk hc
  simpa [Diff] using h

/-- Witness for C2: a scalar field that changed is reported with the new
value, a scalar field that did not change is absent. -/
theorem diff_scalar_field_witness :
    dLookup (Diff [(⟨"f", PKind.primitiveKind, PCardinality.optional⟩, Val.prim "x"),
                   (⟨"g", PKind.primitiveKind, PCardinality.optional⟩, Val.prim "s")]
                  [(⟨"f", PKind.primitiveKind, PCardinality.optional⟩, Val.prim "y"),
                   (⟨"g", PKind.primitiveKind, PCardinality.optional⟩, Val.prim "s")]).1
        "f" = some (DiffOut.raw (Val.prim "y")) ∧
    dLookup (Diff [(⟨"f", PKind.primitiveKind, PCardinality.optional⟩, Val.prim "x"),
                   (⟨"g", PKind.primitiveKind, PCardinality.optional⟩, Val.prim "s")]
                  [(⟨"f", PKind.primitiveKind, PCardinality.optional⟩, Val.prim "y"),
                   (⟨"g", PKind.primitiveKind, PCardinality.optional⟩, Val.prim "s")]).1
        "g" = none := by
  constructor
  · have h := diff_scalar_field
      [(⟨"f", PKind.primitiveKind, PCardinality.optional⟩, Val.prim "x"),
       (⟨"g", PKind.primitiveKind, PCardinality.optional⟩, Val.prim "s")]
      [(⟨"f", PKind.primitiveKind, PCardinality.optional⟩, Val.prim "y"),
       (⟨"g", PKind.primitiveKind, PCardinality.optional⟩, Val.prim "s")]
      ⟨"f", PKind.primitiveKind, PCardinality.optional⟩ (Val.prim "y")
      (by simp) (by simp +decide) (by simp) (by simp)
    rw [h]
    rw [if_neg]
    simp +decide [msgGet, msgFind]
  · have h := diff_scalar_field
      [(⟨"f", PKind.primitiveKind, PCardinality.optional⟩, Val.prim "x"),
       (⟨"g", PKind.primitiveKind, PCardinality.optional⟩, Val.prim "s")]
      [(⟨"f", PKind.primitiveKind, PCardinality.optional⟩, Val.prim "y"),
       (⟨"g", PKind.primitiveKind, PCardinality.optional⟩, Val.prim "s")]
      ⟨"g", PKind.primitiveKind, PCardinality.optional⟩ (Val.prim "s")
      (by simp) (by simp +decide) (by simp) (by simp)
    rw [h]
    rw [if_pos]
    simp +decide [msgGet, msgFind]

/-- C9: on a message-kind field whose old value is a message and whose new
value is not, `diffField` reports a change and stores the OLD message. -/
theorem diffField_old_message (descriptor : FieldDescriptor) (oldFields : Msg)
    (newValue : Val)
    (hk : descriptor.kind = PKind.messageKind)
    (hnew : ∀ gs, newValue ≠ Val.msg gs) :
    diffField descriptor (Val.msg oldFields) newValue =
      (DiffOut.raw (Val.msg oldFields), true) := by
  cases newValue with
  | msg gs => exact absurd rfl (hnew gs)
  | prim s => simp [diffField, hk]
  | list xs => simp [diffField, hk]
  | vmap es => simp [diffField, hk]

/-- Witness for C9: old message against a primitive new value. -/
theorem diffField_old_message_witness :
    diffField ⟨"m", PKind.messageKind, PCardinality.optional⟩
        (Val.msg [(⟨"x", PKind.primitiveKind, PCardinality.optional⟩, Val.prim "1")])
        (Val.prim "") =
      (DiffOut.raw (Val.msg [(⟨"x", PKind.primitiveKind, PCardinality.optional⟩,
        Val.prim "1")]), true) :=
  diffField_old_message ⟨"m", PKind.messageKind, PCardinality.optional⟩
    [(⟨"x", PKind.primitiveKind, PCardinality.optional⟩, Val.prim "1")]
    (Val.prim "") rfl (fun _gs h => Val.noConfusion h)

/-- A plain map key: does not begin with a `+` or `-` marker character, so
the `"+" + key` / `"-" + key` markers cannot collide with it. -/
def plainKey (k : String) : Bool :=
  match k.data with
  | [] => true
  | c :: _ => c ≠ '+' && c ≠ '-'

theorem plus_data (a : String) : ("+" ++ a).data = '+' :: a.data := by
  rw [String.data_append]
  rfl

theorem minus_data (a : String) : ("-" ++ a).data = '-' :: a.data := by
  rw [String.data_append]
  rfl

theorem plus_append_inj {a b : String} (h : "+" ++ a = "+" ++ b) : a = b := by
  have hd := congrArg String.data h
  rw [plus_data, plus_data] at hd
  exact String.ext (List.tail_eq_of_cons_eq hd)

theorem minus_append_inj {a b : String} (h : "-" ++ a = "-" ++ b) : a = b := by
  have hd := congrArg String.data h
  rw [minus_data, minus_data] at hd
  exact String.ext (List.tail_eq_of_cons_eq hd)

theorem plus_ne_plain {p k : String} (hp : plainKey p = true) : "+" ++ k ≠ p := by
  intro h
  subst h
  rw [plainKey, plus_data] at hp
  simp at hp

theorem minus_ne_plain {p k : String} (hp : plainKey p = true) : "-" ++ k ≠ p := by
  intro h
  subst h
  rw [plainKey, minus_data] at hp
  simp at hp

theorem plus_ne_minus (a b : String) : "+" ++ a ≠ "-" ++ b := by
  intro h
  have hd := congrArg String.data h
  rw [plus_data, minus_data] at hd
  have := List.head_eq_of_cons_eq hd
  simp at this

theorem mapGet_some_mem {m : List (String × Val)} {k : String} {v : Val}
    (h : mapGet m k = some v) : (k, v) ∈ m := by
  induction m with
  | nil => simp [mapGet] at h
  | cons e rest ih =>
    obtain ⟨k2, v2⟩ := e
    rw [mapGet] at h
    cases hr : mapGet rest k with
    | some r =>
      rw [hr] at h
      cases h
      exact List.mem_cons_of_mem _ (ih hr)
    | none =>
      rw [hr] at h
      by_cases hk : k2 = k
      · rw [if_pos hk] at h
        cases h
        subst hk
        exact List.mem_cons_self _ _
      · rw [if_neg hk] at h
        cases h

theorem mapGet_none_not_mem {m : List (String × Val)} {k : String}
    (h : mapGet m k = none) : ∀ p ∈ m, p.1 ≠ k := by
  induction m with
  | nil => simp
  | cons e rest ih =>
    obtain ⟨k2, v2⟩ := e
    rw [mapGet] at h
    cases hr : mapGet rest k with
    | some r => rw [hr] at h; cases h
    | none =>
      rw [hr] at h
      intro p hp
      rcases List.mem_cons.mp hp with hp | hp
      · subst hp
        intro hk
        rw [if_pos hk] at h
        cases h
      · exact ih hr p hp

theorem dLookup_append_right {l1 l2 : List (String × DiffOut)} {key : String}
    {r : DiffOut} (h : dLookup l2 key = some r) :
    dLookup (l1 ++ l2) key = some r := by
  induction l1 with
  | nil => simpa using h
  | cons e rest ih =>
    obtain ⟨k, v⟩ := e
    rw [List.cons_append, dLookup, ih]

theorem dLookup_append_left {l1 l2 : List (String × DiffOut)} {key : String}
    (h : dLookup l2 key = none) :
    dLookup (l1 ++ l2) key = dLookup l1 key := by
  induction l1 with
  | nil => simpa using h
  | cons e rest ih =>
    obtain ⟨k, v⟩ := e
    rw [List.cons_append, dLookup, ih, dLookup]

/-- The target loop produces only `"+" + key` and bare-`key` entries for
target keys; lookup of anything else finds nothing. -/
theorem mapChangedEntries_lookup_none (descriptor : FieldDescriptor)
    (originMap targetMap : List (String × Val)) (key : String)
    (h : ∀ p ∈ targetMap, key ≠ "+" ++ p.1 ∧ key ≠ p.1) :
    dLookup (mapChangedEntries descriptor originMap targetMap).1 key = none := by
  induction targetMap with
  | nil => simp [mapChangedEntries, dLookup]
  | cons e rest ih =>
    obtain ⟨k, v⟩ := e
    have hh := h (k, v) (List.mem_cons_self _ _)
    have hr := ih (fun p hp => h p (List.mem_cons_of_mem _ hp))
    cases hg : mapGet originMap k with
    | none => simp [mapChangedEntries, hg, dLookup, hr, Ne.symm hh.1]
    | some oldVal =>
      simp only [mapChangedEntries, hg]
      split <;> simp [dLookup, hr, Ne.symm hh.2]

/-- The deletion loop produces only `"-" + key` entries for origin keys;
lookup of anything else finds nothing. -/
theorem mapDeleted_lookup_none (originMap targetMap : List (String × Val))
    (key : String) (h : ∀ p ∈ originMap, key ≠ "-" ++ p.1) :
    dLookup (mapDeleted originMap targetMap).1 key = none := by
  induction originMap with
  | nil => simp [mapDeleted, dLookup]
  | cons e rest ih =>
    obtain ⟨k, v⟩ := e
    have hh := h (k, v) (List.mem_cons_self _ _)
    have hr := ih (fun p hp => h p (List.mem_cons_of_mem _ hp))
    cases hg : mapGet targetMap k with
    | none => simp [mapDeleted, hg, dLookup, hr, Ne.symm hh]
    | some w => simp [mapDeleted, hg, dLookup, hr]

/-- A target key with no old value is recorded under `"+" + key` with its
(rendered) new value. -/
theorem mapChangedEntries_plus (descriptor : FieldDescriptor)
    (originMap targetMap : List (String × Val)) (k : String) (v : Val)
    (hTnodup : (targetMap.map Prod.fst).Nodup)
    (hTplain : ∀ p ∈ targetMap, plainKey p.1 = true)
    (hget : mapGet targetMap k = some v) (horig : mapGet originMap k = none) :
    dLookup (mapChangedEntries descriptor originMap targetMap).1 ("+" ++ k) =
      some (putToMappDif v) := by
  induction targetMap with
  | nil => simp [mapGet] at hget
  | cons e rest ih =>
    obtain ⟨k2, v2⟩ := e
    simp only [List.map_cons, List.nodup_cons] at hTnodup
    rw [mapGet] at hget
    cases hr : mapGet rest k with
    | some r =>
      rw [hr] at hget
      cases hget
      have hk2 : k2 ≠ k := by
        intro hx
        subst hx
        exact hTnodup.1 (List.mem_map_of_mem Prod.fst (mapGet_some_mem hr))
      have hrec := ih hTnodup.2 (fun p hp => hTplain p (List.mem_cons_of_mem _ hp)) hr
      have hne1 : ¬ k2 = "+" ++ k :=
        Ne.symm (plus_ne_plain (hTplain (k2, v2) (List.mem_cons_self _ _)))
      have hne2 : ¬ ("+" ++ k2) = ("+" ++ k) := fun hx => hk2 (plus_append_inj hx)
      cases hg : mapGet originMap k2 with
      | none => simp [mapChangedEntries, hg, dLookup, hrec, hne2]
      | some oldVal =>
        simp only [mapChangedEntries, hg]
        split <;> simp [dLookup, hrec, hne1]
    | none =>
      rw [hr] at hget
      by_cases hk : k2 = k
      · rw [if_pos hk] at hget
        cases hget
        subst hk
        have hnone : dLookup (mapChangedEntries descriptor originMap rest).1 ("+" ++ k2) = none := by
          apply mapChangedEntries_lookup_none
          intro p hp
          constructor
          · intro hx
            exact hTnodup.1 (plus_append_inj hx ▸ List.mem_map_of_mem Prod.fst hp)
          · exact plus_ne_plain (hTplain p (List.mem_cons_of_mem _ hp))
        simp [mapChangedEntries, horig, dLookup, hnone]
      · rw [if_neg hk] at hget
        cases hget

/-- A key present in both maps is recorded under the bare key exactly when
`diffField` reports a change, holding `diffField`'s value. -/
theorem mapChangedEntries_bare (descriptor : FieldDescriptor)
    (originMap targetMap : List (String × Val)) (k : String) (ov nv : Val)
    (hTnodup : (targetMap.map Prod.fst).Nodup)
    (hTplain : ∀ p ∈ targetMap, plainKey p.1 = true)
    (hkplain : plainKey k = true)
    (hgetT : mapGet targetMap k = some nv) (hgetO : mapGet originMap k = some ov) :
    dLookup (mapChangedEntries descriptor originMap targetMap).1 k =
      if (diffField descriptor ov nv).2 then some (diffField descriptor ov nv).1
      else none := by
  induction targetMap with
  | nil => simp [mapGet] at hgetT
  | cons e rest ih =>
    obtain ⟨k2, v2⟩ := e
    simp only [List.map_cons, List.nodup_cons] at hTnodup
    rw [mapGet] at hgetT
    cases hr : mapGet rest k with
    | some r =>
      rw [hr] at hgetT
      cases hgetT
      have hk2 : k2 ≠ k := by
        intro hx
        subst hx
        exact hTnodup.1 (List.mem_map_of_mem Prod.fst (mapGet_some_mem hr))
      have hrec := ih hTnodup.2 (fun p hp => hTplain p (List.mem_cons_of_mem _ hp)) hr
      have hne1 : ¬ ("+" ++ k2) = k := plus_ne_plain hkplain
      cases hg : mapGet originMap k2 with
      | none =>
        simp only [mapChangedEntries, hg]
        rw [dLookup_cons_ne hne1, hrec]
      | some oldVal =>
        simp only [mapChangedEntries, hg]
        split
        · rw [dLookup_cons_ne hk2, hrec]
        · exact hrec
    | none =>
      rw [hr] at hgetT
      by_cases hk : k2 = k
      · rw [if_pos hk] at hgetT
        cases hgetT
        subst hk
        have hnone : dLookup (mapChangedEntries descriptor originMap rest).1 k2 = none := by
          apply mapChangedEntries_lookup_none
          intro p hp
          constructor
          · exact Ne.symm (plus_ne_plain hkplain)
          · intro hx
            exact hTnodup.1 (hx ▸ List.mem_map_of_mem Prod.fst hp)
        simp only [mapChangedEntries, hgetO]
        split
        · rename_i hdr
          simp [dLookup, hnone, hdr]
        · rename_i hdr
          simp [hnone, hdr]
      · rw [if_neg hk] at hgetT
        cases hgetT

/-- An origin key with no new value is recorded under `"-" + key` with its
(rendered) old value. -/
theorem mapDeleted_minus (originMap targetMap : List (String × Val))
    (k : String) (v : Val)
    (hOnodup : (originMap.map Prod.fst).Nodup)
    (hgetO : mapGet originMap k = some v) (hgetT : mapGet targetMap k = none) :
    dLookup (mapDeleted originMap targetMap).1 ("-" ++ k) =
      some (putToMappDif v) := by
  induction originMap with
  | nil => simp [mapGet] at hgetO
  | cons e rest ih =>
    obtain ⟨k2, v2⟩ := e
    simp only [List.map_cons, List.nodup_cons] at hOnodup
    rw [mapGet] at hgetO
    cases hr : mapGet rest k with
    | some r =>
      rw [hr] at hgetO
      cases hgetO
      have hk2 : k2 ≠ k := by
        intro hx
        subst hx
        exact hOnodup.1 (List.mem_map_of_mem Prod.fst (mapGet_some_mem hr))
      have hrec := ih hOnodup.2 hr
      have hne2 : ¬ ("-" ++ k2) = ("-" ++ k) := fun hx => hk2 (minus_append_inj hx)
      cases hg : mapGet targetMap k2 with
      | none => simp [mapDeleted, hg, dLookup, hrec, hne2]
      | some w => simp [mapDeleted, hg, dLookup, hrec]
    | none =>
      rw [hr] at hgetO
      by_cases hk : k2 = k
      · rw [if_pos hk] at hgetO
        cases hgetO
        subst hk
        have hnone : dLookup (mapDeleted rest targetMap).1 ("-" ++ k2) = none := by
          apply mapDeleted_lookup_none
          intro p hp hx
          exact hOnodup.1 (minus_append_inj hx ▸ List.mem_map_of_mem Prod.fst hp)
        simp [mapDeleted, hgetT, dLookup, hnone]
      · rw [if_neg hk] at hgetO
        cases hgetO

/-- The target loop's counter equals the number of entries it records. -/
theorem mapChangedEntries_length (descriptor : FieldDescriptor)
    (originMap targetMap : List (String × Val)) :
    (mapChangedEntries descriptor originMap targetMap).1.length =
      (mapChangedEntries descriptor originMap targetMap).2 := by
  induction targetMap with
  | nil => simp [mapChangedEntries]
  | cons e rest ih =>
    obtain ⟨k, v⟩ := e
    cases hg : mapGet originMap k with
    | none => simp [mapChangedEntries, hg, ih]
    | some oldVal =>
      simp only [mapChangedEntries, hg]
      split <;> simp [ih]

/-- The deletion loop's counter equals the number of entries it records. -/
theorem mapDeleted_length (originMap targetMap : List (String × Val)) :
    (mapDeleted originMap targetMap).1.length = (mapDeleted originMap targetMap).2 := by
  induction originMap with
  | nil => simp [mapDeleted]
  | cons e rest ih =>
    obtain ⟨k, v⟩ := e
    cases hg : mapGet targetMap k with
    | none => simp [mapDeleted, hg, ih]
    | some w => simp [mapDeleted, hg, ih]

/-- C3: for a repeated or map field, `mapDiff` produces a per-key diff:
a key present only in the new map appears under `"+" + key` with its new
value, a key present only in the old map appears under `"-" + key` with its
old value, a key present in both with equal (well-formed) values is absent,
and the field is reported changed iff at least one entry exists. -/
theorem mapDiff_per_key (descriptor : FieldDescriptor)
    (originMap targetMap : List (String × Val))
    (hOnodup : (originMap.map Prod.fst).Nodup)
    (hTnodup : (targetMap.map Prod.fst).Nodup)
    (hTplain : ∀ p ∈ targetMap, plainKey p.1 = true) :
    (∀ k v, mapGet targetMap k = some v → mapGet originMap k = none →
        dLookup (mapDiff descriptor originMap targetMap).1 ("+" ++ k) =
          some (putToMappDif v)) ∧
    (∀ k v, mapGet originMap k = some v → mapGet targetMap k = none →
        dLookup (mapDiff descriptor originMap targetMap).1 ("-" ++ k) =
          some (putToMappDif v)) ∧
    (∀ k v, wfVal v = true → mapGet originMap k = some v →
        mapGet targetMap k = some v →
        dLookup (mapDiff descriptor originMap targetMap).1 k = none) ∧
    ((mapDiff descriptor originMap targetMap).2 = true ↔
        (mapDiff descriptor originMap targetMap).1 ≠ []) := by
  refine ⟨?_, ?_, ?_, ?_⟩
  · intro k v hT hO
    have h2 : dLookup (mapDeleted originMap targetMap).1 ("+" ++ k) = none := by
      apply mapDeleted_lookup_none
      intro p hp
      exact plus_ne_minus k p.1
    simp only [mapDiff]
    rw [dLookup_append_left h2]
    exact mapChangedEntries_plus descriptor originMap targetMap k v
      hTnodup hTplain hT hO
  · intro k v hO hT
    simp only [mapDiff]
    rw [dLookup_append_right
      (mapDeleted_minus originMap targetMap k v hOnodup hO hT)]
  · intro k v hwf hO hT
    have hkplain : plainKey k = true :=
      hTplain (k, v) (mapGet_some_mem hT)
    have h2 : dLookup (mapDeleted originMap targetMap).1 k = none := by
      apply mapDeleted_lookup_none
      intro p hp
      exact Ne.symm (minus_ne_plain hkplain)
    simp only [mapDiff]
    rw [dLookup_append_left h2]
    rw [mapChangedEntries_bare descriptor originMap targetMap k v v
      hTnodup hTplain hkplain hT hO]
    rw [if_neg]
    rw [diffField_self descriptor v hwf]
    simp
  · have hl1 := mapChangedEntries_length descriptor originMap targetMap
    have hl2 := mapDeleted_length originMap targetMap
    simp only [mapDiff, decide_eq_true_eq]
    constructor
    · intro h hx
      have := congrArg List.length hx
      simp [hl1, hl2] at this
      omega
    · intro h
      rcases Nat.eq_zero_or_pos ((mapChangedEntries descriptor originMap targetMap).2 +
          (mapDeleted originMap targetMap).2) with hz | hp
      · exfalso
        apply h
        have e1 : (mapChangedEntries descriptor originMap targetMap).1 = [] :=
          List.length_eq_zero.mp (by omega)
        have e2 : (mapDeleted originMap targetMap).1 = [] :=
          List.length_eq_zero.mp (by omega)
        simp [e1, e2]
      · exact hp

/-- Witness for C3 on concrete maps: key `d` added, key `c` deleted, key
`a` unchanged; the changed flag tracks non-emptiness. -/
theorem mapDiff_per_key_witness :
    dLookup (mapDiff ⟨"m", PKind.primitiveKind, PCardinality.repeated⟩
        [("a", Val.prim "1"), ("b", Val.prim "2"), ("c", Val.prim "3")]
        [("a", Val.prim "1"), ("b", Val.prim "9"), ("d", Val.prim "4")]).1
      ("+" ++ "d") = some (DiffOut.str "4") ∧
    dLookup (mapDiff ⟨"m", PKind.primitiveKind, PCardinality.repeated⟩
        [("a", Val.prim "1"), ("b", Val.prim "2"), ("c", Val.prim "3")]
        [("a", Val.prim "1"), ("b", Val.prim "9"), ("d", Val.prim "4")]).1
      ("-" ++ "c") = some (DiffOut.str "3") ∧
    dLookup (mapDiff ⟨"m", PKind.primitiveKind, PCardinality.repeated⟩
        [("a", Val.prim "1"), ("b", Val.prim "2"), ("c", Val.prim "3")]
        [("a", Val.prim "1"), ("b", Val.prim "9"), ("d", Val.prim "4")]).1
      "a" = none ∧
    ((mapDiff ⟨"m", PKind.primitiveKind, PCardinality.repeated⟩
        [("a", Val.prim "1"), ("b", Val.prim "2"), ("c", Val.prim "3")]
        [("a", Val.prim "1"), ("b", Val.prim "9"), ("d", Val.prim "4")]).2 = true ↔
      (mapDiff ⟨"m", PKind.primitiveKind, PCardinality.repeated⟩
        [("a", Val.prim "1"), ("b", Val.prim "2"), ("c", Val.prim "3")]
        [("a", Val.prim "1"), ("b", Val.prim "9"), ("d", Val.prim "4")]).1 ≠ []) := by
  have h := mapDiff_per_key ⟨"m", PKind.primitiveKind, PCardinality.repeated⟩
    [("a", Val.prim "1"), ("b", Val.prim "2"), ("c", Val.prim "3")]
    [("a", Val.prim "1"), ("b", Val.prim "9"), ("d", Val.prim "4")]
    (by decide) (by decide) (by decide)
  refine ⟨?_, ?_, ?_, h.2.2.2⟩
  · have := h.1 "d" (Val.prim "4") rfl rfl
    simpa [putToMappDif, valString] using this
  · have := h.2.1 "c" (Val.prim "3") rfl rfl
    simpa [putToMappDif, valString] using this
  · exact h.2.2.1 "a" (Val.prim "1") (by simp [wfVal]) rfl rfl

/-- Every character printed for a decimal number is a decimal digit char. -/
theorem natDigits_chars : ∀ n : Nat, ∀ c ∈ natDigits n, ∃ d, d < 10 ∧ c = Nat.digitChar d := by
  intro n
  induction n using Nat.strong_induction_on with
  | _ n ih =>
    intro c hc
    rw [natDigits_def] at hc
    by_cases hn : n < 10
    · rw [if_pos hn] at hc
      simp only [List.mem_singleton] at hc
      exact ⟨n, hn, hc⟩
    · rw [if_neg hn] at hc
      rcases List.mem_append.mp hc with hc | hc
      · exact ih (n / 10) (Nat.div_lt_self (by omega) (by omega)) c hc
      · simp only [List.mem_singleton] at hc
        exact ⟨n % 10, Nat.mod_lt _ (by omega), hc⟩

theorem digitChar_ne_markers {d : Nat} (h : d < 10) :
    Nat.digitChar d ≠ '+' ∧ Nat.digitChar d ≠ '-' := by
  interval_cases d <;> exact ⟨by decide, by decide⟩

theorem toString_nat_data (n : Nat) : (toString n).data = natDigits n := by
  have h := toDigitsCore_eq_natDigits (n + 1) n [] (by omega)
  show (Nat.repr n).data = natDigits n
  unfold Nat.repr Nat.toDigits
  rw [h]
  simp [List.asString]

/-- Decimal index keys are plain: they carry no `+`/`-` marker. -/
theorem plainKey_toString (n : Nat) : plainKey (toString n) = true := by
  rw [plainKey]
  rw [toString_nat_data]
  cases hnd : natDigits n with
  | nil => exact absurd hnd (natDigits_ne_nil n)
  | cons c cs =>
    obtain ⟨d, hd, rfl⟩ := natDigits_chars n c (hnd ▸ List.mem_cons_self _ _)
    have hm := digitChar_ne_markers hd
    simp [hm.1, hm.2]

theorem toIndexMap_key_mem {xs : List Val} {s : Nat} {k : String}
    (h : k ∈ (toIndexMap xs s).map Prod.fst) : ∃ j, k = toString (s + j) := by
  obtain ⟨p, hp, rfl⟩ := List.mem_map.mp h
  obtain ⟨k2, w⟩ := p
  obtain ⟨j, hj, _⟩ := toIndexMap_mem hp
  exact ⟨j, hj⟩

/-- Index-map keys are pairwise distinct. -/
theorem toIndexMap_keys_nodup (xs : List Val) (s : Nat) :
    ((toIndexMap xs s).map Prod.fst).Nodup := by
  induction xs generalizing s with
  | nil => simp [toIndexMap]
  | cons x rest ih =>
    rw [toIndexMap]
    simp only [List.map_cons, List.nodup_cons]
    refine ⟨?_, ih (s + 1)⟩
    intro hmem
    obtain ⟨j, hj⟩ := toIndexMap_key_mem hmem
    have := toString_nat_inj hj
    omega

/-- Index-map keys are plain. -/
theorem toIndexMap_keys_plain (xs : List Val) (s : Nat) :
    ∀ p ∈ toIndexMap xs s, plainKey p.1 = true := by
  intro p hp
  obtain ⟨k2, w⟩ := p
  obtain ⟨j, hj, _⟩ := toIndexMap_mem hp
  rw [hj]
  exact plainKey_toString (s + j)

/-- Repeated-list-field characterisation of the `diffFields` loop: the two
lists are converted to index-keyed maps, and the field's entry is the
`mapDiff` of those maps (present iff it reports a change). -/
theorem diffFields_repeated (o : Msg) (fields : List (FieldDescriptor × Val))
    (fd : FieldDescriptor) (xs ys : List Val)
    (hmem : (fd, Val.list ys) ∈ fields)
    (hnodup : (fields.map (fun p => p.1.name)).Nodup)
    (hc : fd.cardinality = PCardinality.repeated)
    (hget : msgGet o fd = Val.list xs) :
    dLookup (diffFields o fields).1 fd.name =
      if (mapDiff fd (toIndexMap xs 0) (toIndexMap ys 0)).2
      then some (DiffOut.dmap (mapDiff fd (toIndexMap xs 0) (toIndexMap ys 0)).1)
      else none := by
  induction fields with
  | nil => simp at hmem
  | cons e rest ih =>
    obtain ⟨d, v⟩ := e
    simp only [List.map_cons, List.nodup_cons] at hnodup
    rcases List.mem_cons.mp hmem with hh | hh
    · injection hh with h1 h2
      subst h1
      subst h2
      have hnone : dLookup (diffFields o rest).1 fd.name = none := by
        apply diffFields_lookup_none
        intro p hp hpk
        exact hnodup.1 (hpk ▸ List.mem_map_of_mem (fun q => q.1.name) hp)
      simp only [diffFields, hc, if_true, hget, originTargetMaps]
      split
      · simp [dLookup, hnone]
      · simp [hnone]
    · have hdn : d.name ≠ fd.name := by
        intro hx
        exact hnodup.1 (hx ▸ List.mem_map_of_mem (fun q => q.1.name) hh)
      have hr := ih hh hnodup.2
      by_cases hcd : d.cardinality = PCardinality.repeated <;>
        simp only [diffFields, hcd, if_true, if_false] <;> split <;>
        first
          | rw [dLookup_cons_ne hdn, hr]
          | exact hr

/-- C8: repeated (list) fields are compared positionally — both lists are
converted to maps keyed by the decimal string of the element index, so the
field's diff entry is `mapDiff` of those index maps; element `i` of the old
list is compared with element `i` of the new list, an index only in the
longer new list is reported as `"+i"` with the new element, and an index
only in the longer old list as `"-i"` with the old element. -/
theorem diff_list_field (a b : Msg) (fd : FieldDescriptor) (xs ys : List Val)
    (hmem : (fd, Val.list ys) ∈ b)
    (hnodup : (b.map (fun p => p.1.name)).Nodup)
    (hc : fd.cardinality = PCardinality.repeated)
    (hget : msgGet a fd = Val.list xs) :
    (dLookup (Diff a b).1 fd.name =
      if (mapDiff fd (toIndexMap xs 0) (toIndexMap ys 0)).2
      then some (DiffOut.dmap (mapDiff fd (toIndexMap xs 0) (toIndexMap ys 0)).1)
      else none) ∧
    (∀ i ow nw, xs.get? i = some ow → ys.get? i = some nw →
      dLookup (mapDiff fd (toIndexMap xs 0) (toIndexMap ys 0)).1 (toString i) =
        if (diffField fd ow nw).2 then some (diffField fd ow nw).1 else none) ∧
    (∀ i w, ys.get? i = some w → xs.get? i = none →
      dLookup (mapDiff fd (toIndexMap xs 0) (toIndexMap ys 0)).1 ("+" ++ toString i) =
        some (putToMappDif w)) ∧
    (∀ i w, xs.get? i = some w → ys.get? i = none →
      dLookup (mapDiff fd (toIndexMap xs 0) (toIndexMap ys 0)).1 ("-" ++ toString i) =
        some (putToMappDif w)) := by
  have hgetX : ∀ i, mapGet (toIndexMap xs 0) (toString i) = xs.get? i := by
    intro i
    rw [mapGet_toIndexMap, if_pos (Nat.zero_le i)]
    simp
  have hgetY : ∀ i, mapGet (toIndexMap ys 0) (toString i) = ys.get? i := by
    intro i
    rw [mapGet_toIndexMap, if_pos (Nat.zero_le i)]
    simp
  refine ⟨?_, ?_, ?_, ?_⟩
  · have h := diffFields_repeated a b fd xs ys hmem hnodup hc hget
    simpa [Diff] using h
  · intro i ow nw hx hy
    have h2 : dLookup (mapDeleted (toIndexMap xs 0) (toIndexMap ys 0)).1 (toString i) = none := by
      apply mapDeleted_lookup_none
      intro p hp
      exact Ne.symm (minus_ne_plain (plainKey_toString i))
    simp only [mapDiff]
    rw [dLookup_append_left h2]
    exact mapChangedEntries_bare fd (toIndexMap xs 0) (toIndexMap ys 0)
      (toString i) ow nw (toIndexMap_keys_nodup ys 0) (toIndexMap_keys_plain ys 0)
      (plainKey_toString i) ((hgetY i).trans hy) ((hgetX i).trans hx)
  · intro i w hy hx
    have h2 : dLookup (mapDeleted (toIndexMap xs 0) (toIndexMap ys 0)).1
        ("+" ++ toString i) = none := by
      apply mapDeleted_lookup_none
      intro p hp
      exact plus_ne_minus (toString i) p.1
    simp only [mapDiff]
    rw [dLookup_append_left h2]
    exact mapChangedEntries_plus fd (toIndexMap xs 0) (toIndexMap ys 0)
      (toString i) w (toIndexMap_keys_nodup ys 0) (toIndexMap_keys_plain ys 0)
      ((hgetY i).trans hy) ((hgetX i).trans hx)
  · intro i w hx hy
    simp only [mapDiff]
    rw [dLookup_append_right
      (mapDeleted_minus (toIndexMap xs 0) (toIndexMap ys 0) (toString i) w
        (toIndexMap_keys_nodup xs 0) ((hgetX i).trans hx) ((hgetY i).trans hy))]

/-- Witness for C8: inserting one element at the front of a two-element
list reports positions 0 and 1 as changed and position 2 as added. -/
theorem diff_list_field_witness :
    dLookup (mapDiff ⟨"l", PKind.primitiveKind, PCardinality.repeated⟩
        (toIndexMap [Val.prim "a", Val.prim "b"] 0)
        (toIndexMap [Val.prim "c", Val.prim "a", Val.prim "b"] 0)).1
      (toString 0) = some (DiffOut.raw (Val.prim "c")) ∧
    dLookup (mapDiff ⟨"l", PKind.primitiveKind, PCardinality.repeated⟩
        (toIndexMap [Val.prim "a", Val.prim "b"] 0)
        (toIndexMap [Val.prim "c", Val.prim "a", Val.prim "b"] 0)).1
      (toString 1) = some (DiffOut.raw (Val.prim "a")) ∧
    dLookup (mapDiff ⟨"l", PKind.primitiveKind, PCardinality.repeated⟩
        (toIndexMap [Val.prim "a", Val.prim "b"] 0)
        (toIndexMap [Val.prim "c", Val.prim "a", Val.prim "b"] 0)).1
      ("+" ++ toString 2) = some (DiffOut.str "b") := by
  have h := diff_list_field
    [(⟨"l", PKind.primitiveKind, PCardinality.repeated⟩,
        Val.list [Val.prim "a", Val.prim "b"])]
    [(⟨"l", PKind.primitiveKind, PCardinality.repeated⟩,
        Val.list [Val.prim "c", Val.prim "a", Val.prim "b"])]
    ⟨"l", PKind.primitiveKind, PCardinality.repeated⟩
    [Val.prim "a", Val.prim "b"] [Val.prim "c", Val.prim "a", Val.prim "b"]
    (by simp) (by simp) rfl (by simp [msgGet, msgFind])
  refine ⟨?_, ?_, ?_⟩
  · have hx := h.2.1 0 (Val.prim "a") (Val.prim "c") rfl rfl
    rw [hx]
    rw [if_pos]
    · congr 1
      simp +decide [diffField, deepEqual]
    · simp +decide [diffField, deepEqual]
  · have hx := h.2.1 1 (Val.prim "b") (Val.prim "a") rfl rfl
    rw [hx]
    rw [if_pos]
    · congr 1
      simp +decide [diffField, deepEqual]
    · simp +decide [diffField, deepEqual]
  · have hx := h.2.2.1 2 (Val.prim "b") rfl rfl
    rw [hx]
    simp [putToMappDif, valString]

/-- A `proto.Message`: its descriptor's full name and its fields. -/
structure PMsg where
  fullName : String
  fields : Msg

/-- The per-connection trace state (`ConnectionInfo`): the previously seen
request and response, `nil` when none was stored. -/
structure ConnectionInfo where
  Request : Option PMsg
  Response : Option PMsg

/-- A log emission of the trace stage: a `request-diff`/`response-diff`
line (carrying the `cmp.Diff` string) or a full `request`/`response` line. -/
inductive LogEvent where
  | requestDiff (d : String)
  | requestFull (m : PMsg)
  | responseDiff (d : String)
  | responseFull (m : PMsg)

/-- `proto.Equal` on possibly-nil messages: both nil are equal, nil never
equals a message, and two messages are equal when they have the same
descriptor and structurally equal fields. -/
def protoEqual : Option PMsg → Option PMsg → Bool
  | none, none => true
  | some a, some b => a.fullName == b.fullName && deepEqual (Val.msg a.fields) (Val.msg b.fields)
  | _, _ => false

/-- `logRequest`: when tracing is on and the incoming request is not
proto-equal to the stored one, log the `cmp.Diff` against the stored
request (same descriptor, non-nil) or the full request, and store a clone
of the incoming request.  The mutation of `connInfo` is returned as the new
state, the `Debugf` emission as an optional event; `cmp.Diff` is the
opaque collaborator `cmpDiff`. -/
def logRequest (cmpDiff : Option PMsg → Option PMsg → String)
    (connInfo : Option ConnectionInfo) (request : PMsg) :
    Option ConnectionInfo × Option LogEvent :=
  match connInfo with
  | none => (none, none)
  | some info =>
    if ¬ protoEqual info.Request (some request) then
      match info.Request with
      | some prev =>
        if prev.fullName = request.fullName then
          let requestDiff := cmpDiff (some prev) (some request)
          (some { info with Request := some request },
           if requestDiff ≠ "" then some (LogEvent.requestDiff requestDiff) else none)
        else (some { info with Request := some request }, some (LogEvent.requestFull request))
      | none => (some { info with Request := some request }, some (LogEvent.requestFull request))
    else (some info, none)

/-- `logResponse`: when tracing is on and the response is not proto-equal
to the stored one, log the `cmp.Diff` of `connInfo.Request` (as the source
does) against the new response when a previous response is stored, else the
full response, and store a clone of the response. -/
def logResponse (cmpDiff : Option PMsg → Option PMsg → String)
    (connInfo : Option ConnectionInfo) (response : PMsg) :
    Option ConnectionInfo × Option LogEvent :=
  match connInfo with
  | none => (none, none)
  | some info =>
    if ¬ protoEqual info.Response (some response) then
      match info.Response with
      | some _ =>
        let responseDiff := cmpDiff info.Request (some response)
        (some { info with Response := some response },
         if responseDiff ≠ "" then some (LogEvent.responseDiff responseDiff) else none)
      | none => (some { info with Response := some response }, some (LogEvent.responseFull response))
    else (some info, none)

theorem protoEqual_refl (p : PMsg) : protoEqual (some p) (some p) = true := by
  simp [protoEqual, deepEqual_refl]

/-- C10: `logRequest` is idempotent on the trace state — it updates the
stored request only when the incoming request is not proto-equal to it, so
a second call with an equal request emits no log and leaves the stored
connection info unchanged. -/
theorem logRequest_idempotent (cmpDiff : Option PMsg → Option PMsg → String) :
    (∀ info r, protoEqual info.Request (some r) = true →
        logRequest cmpDiff (some info) r = (some info, none)) ∧
    (∀ st r, logRequest cmpDiff (logRequest cmpDiff st r).1 r =
        ((logRequest cmpDiff st r).1, none)) := by
  have heq : ∀ info r, protoEqual info.Request (some r) = true →
      logRequest cmpDiff (some info) r = (some info, none) := by
    intro info r h
    simp [logRequest, h]
  refine ⟨heq, ?_⟩
  intro st r
  cases st with
  | none => rfl
  | some info =>
    by_cases h : protoEqual info.Request (some r) = true
    · rw [heq info r h]
      exact heq info r h
    · have hst : (logRequest cmpDiff (some info) r).1 =
          some { info with Request := some r } := by
        simp only [logRequest, h, not_false_iff, if_true]
        cases info.Request with
        | none => rfl
        | some prev =>
          by_cases hn : prev.fullName = r.fullName <;> simp [hn]
      rw [hst]
      exact heq { info with Request := some r } r (protoEqual_refl r)

/-- Witness for C10: a repeated equal request is a no-op and emits nothing. -/
theorem logRequest_idempotent_witness :
    logRequest (fun _ _ => "")
        (some ⟨some ⟨"Conn", [(⟨"f", PKind.primitiveKind, PCardinality.optional⟩,
          Val.prim "x")]⟩, none⟩)
        ⟨"Conn", [(⟨"f", PKind.primitiveKind, PCardinality.optional⟩, Val.prim "x")]⟩ =
      (some ⟨some ⟨"Conn", [(⟨"f", PKind.primitiveKind, PCardinality.optional⟩,
          Val.prim "x")]⟩, none⟩, none) :=
  (logRequest_idempotent (fun _ _ => "")).1
    ⟨some ⟨"Conn", [(⟨"f", PKind.primitiveKind, PCardinality.optional⟩, Val.prim "x")]⟩, none⟩
    ⟨"Conn", [(⟨"f", PKind.primitiveKind, PCardinality.optional⟩, Val.prim "x")]⟩
    (protoEqual_refl _)

/-- C4 (code bug): with a stored previous response, `logResponse` computes
the emitted diff from the stored REQUEST and the new response — not from
the stored response.  Here the collaborator `cmpDiff` reports the full name
of its first argument: the emitted `response-diff` says `"REQUEST"`, though
the stored previous response is `"RESPONSE_OLD"`. -/
theorem logResponse_diffs_request :
    logResponse (fun a _ => match a with | some p => p.fullName | none => "nil")
        (some ⟨some ⟨"REQUEST", []⟩, some ⟨"RESPONSE_OLD", []⟩⟩)
        ⟨"RESPONSE_NEW", []⟩ =
      (some ⟨some ⟨"REQUEST", []⟩, some ⟨"RESPONSE_NEW", []⟩⟩,
       some (LogEvent.responseDiff "REQUEST")) := by
  simp +decide [logResponse, protoEqual]

/-- Modelled from the spec: the kinds of chain elements that sign a path
segment on an end-to-end NSM path (the implementation of the chains is not
under src/, only the interdomain tests are). -/
inductive Stage where
  | client
  | nsmgr
  | forwarder
  | nsmgrProxy
  | nse
deriving DecidableEq, Repr

/-- Modelled from the spec: `PathSegment` = `{name, id, token, expires_at}`. -/
structure PathSegment where
  name : String
  id : String
  token : String
  expiresAt : Nat
deriving DecidableEq, Repr

/-- Modelled from the spec: a `Connection` carries its client-chosen `id`
and the ordered list of path segments. -/
structure Connection where
  id : String
  path : List PathSegment
deriving DecidableEq, Repr

def stageName : Stage → String
  | Stage.client => "client"
  | Stage.nsmgr => "nsmgr"
  | Stage.forwarder => "forwarder"
  | Stage.nsmgrProxy => "nsmgr-proxy"
  | Stage.nse => "nse"

/-- Modelled from the spec: each stage that appends a path segment signs it
with the token generator; segments are appended left-to-right as the
request descends, and on a refresh the existing segment at the stage's
index is re-signed in place, so the path length is preserved. -/
def processStage (tokenGen : Stage → String × Nat) (s : Stage) (idx : Nat)
    (c : Connection) : Connection :=
  let t := tokenGen s
  if idx < c.path.length then
    { c with path := c.path.set idx ⟨stageName s, c.id, t.1, t.2⟩ }
  else
    { c with path := c.path ++ [⟨stageName s, c.id, t.1, t.2⟩] }

/-- Modelled from the spec: a Request traversal visits the chain's stages
in order, stage `i` handling path index `i`. -/
def processChainFrom (tokenGen : Stage → String × Nat) (idx : Nat) :
    List Stage → Connection → Connection
  | [], c => c
  | s :: rest, c => processChainFrom tokenGen (idx + 1) rest (processStage tokenGen s idx c)

/-- Modelled from the spec: a full Request traversal of a chain. -/
def processChain (tokenGen : Stage → String × Nat) (chain : List Stage)
    (c : Connection) : Connection :=
  processChainFrom tokenGen 0 chain c

/-- Modelled from the spec: the simple local chain
client → NSMgr → Forwarder → NSMgr → NSE (5 segments). -/
def localChain : List Stage :=
  [Stage.client, Stage.nsmgr, Stage.forwarder, Stage.nsmgr, Stage.nse]

/-- Modelled from the spec: the single-hop interdomain chain
client → NSMgr → Forwarder → NSMgr → NSMgr-Proxy (local) →
NSMgr-Proxy (remote) → NSMgr → Forwarder → NSMgr → NSE (10 segments). -/
def interdomainChain : List Stage :=
  [Stage.client, Stage.nsmgr, Stage.forwarder, Stage.nsmgr, Stage.nsmgrProxy,
   Stage.nsmgrProxy, Stage.nsmgr, Stage.forwarder, Stage.nsmgr, Stage.nse]

/-- Modelled from the spec: the N-cluster pass-through chain — a local
request to the last cluster's NSE, whose embedded client re-Requests the
previous cluster's service interdomain, and so on. -/
def passThroughChain : Nat → List Stage
  | 0 => []
  | 1 => localChain
  | n + 2 => passThroughChain (n + 1) ++ interdomainChain

theorem processStage_id (tokenGen : Stage → String × Nat) (s : Stage) (idx : Nat)
    (c : Connection) : (processStage tokenGen s idx c).id = c.id := by
  rw [processStage]
  split <;> rfl

theorem processStage_length (tokenGen : Stage → String × Nat) (s : Stage) (idx : Nat)
    (c : Connection) :
    (processStage tokenGen s idx c).path.length =
      if idx < c.path.length then c.path.length else c.path.length + 1 := by
  rw [processStage]
  split <;> simp_all

theorem processChainFrom_id (tokenGen : Stage → String × Nat) (chain : List Stage)
    (idx : Nat) (c : Connection) :
    (processChainFrom tokenGen idx chain c).id = c.id := by
  induction chain generalizing idx c with
  | nil => rfl
  | cons s rest ih => rw [processChainFrom, ih, processStage_id]

theorem processChainFrom_length (tokenGen : Stage → String × Nat) (chain : List Stage)
    (idx : Nat) (c : Connection) (h : idx ≤ c.path.length) :
    (processChainFrom tokenGen idx chain c).path.length =
      max c.path.length (idx + chain.length) := by
  induction chain generalizing idx c with
  | nil => simp [processChainFrom]; omega
  | cons s rest ih =>
    rw [processChainFrom]
    by_cases hlt : idx < c.path.length
    · rw [ih (idx + 1) _ (by rw [processStage_length, if_pos hlt]; omega)]
      rw [processStage_length, if_pos hlt]
      simp only [List.length_cons]
      omega
    · have hidx : idx = c.path.length := by omega
      rw [ih (idx + 1) _ (by rw [processStage_length, if_neg hlt]; omega)]
      rw [processStage_length, if_neg hlt]
      simp only [List.length_cons]
      omega

theorem processChain_id (tokenGen : Stage → String × Nat) (chain : List Stage)
    (c : Connection) : (processChain tokenGen chain c).id = c.id :=
  processChainFrom_id tokenGen chain 0 c

theorem processChain_length (tokenGen : Stage → String × Nat) (chain : List Stage)
    (c : Connection) :
    (processChain tokenGen chain c).path.length = max c.path.length chain.length := by
  have h := processChainFrom_length tokenGen chain 0 c (Nat.zero_le _)
  simpa [processChain] using h

theorem passThroughChain_length (n : Nat) (hn : 1 ≤ n) :
    (passThroughChain n).length = 10 * (n - 1) + 5 := by
  induction n with
  | zero => omega
  | succ n ih =>
    match n with
    | 0 => rfl
    | m + 1 =>
      rw [passThroughChain]
      have := ih (by omega)
      simp only [List.length_append, this]
      have hi : interdomainChain.length = 10 := rfl
      rw [hi]
      omega

/-- C5: a successful single-hop interdomain Request — routed through the
two NSMgr-Proxies — returns a connection whose path has exactly 10
segments. -/
theorem interdomain_path_length (tokenGen : Stage → String × Nat) (c : Connection)
    (h : c.path = []) :
    (processChain tokenGen interdomainChain c).path.length = 10 := by
  rw [processChain_length, h]
  rfl

/-- Witness for C5: a fresh connection through the interdomain chain. -/
theorem interdomain_path_length_witness :
    (processChain (fun _ => ("tok", 1)) interdomainChain ⟨"1", []⟩).path.length = 10 :=
  interdomain_path_length (fun _ => ("tok", 1)) ⟨"1", []⟩ rfl

/-- C6: for an N-cluster pass-through chain, a successful client Request at
the last cluster returns a path of exactly `10·(N-1)+5` segments. -/
theorem passthrough_path_length (tokenGen : Stage → String × Nat) (n : Nat)
    (hn : 1 ≤ n) (c : Connection) (h : c.path = []) :
    (processChain tokenGen (passThroughChain n) c).path.length = 10 * (n - 1) + 5 := by
  rw [processChain_length, h, passThroughChain_length n hn]
  simp

/-- Witness for C6: five clusters give 45 segments. -/
theorem passthrough_path_length_witness :
    (processChain (fun _ => ("tok", 1)) (passThroughChain 5) ⟨"1", []⟩).path.length = 45 := by
  have h := passthrough_path_length (fun _ => ("tok", 1)) 5 (by omega) ⟨"1", []⟩ rfl
  simpa using h

/-- C7: a repeated (refresh) Request with the same connection id returns a
connection with the same id and a path of identical length (even when the
refresh re-signs every segment with fresh tokens). -/
theorem refresh_preserves_id_and_length (tokenGen1 tokenGen2 : Stage → String × Nat)
    (chain : List Stage) (c : Connection) (h : c.path = []) :
    (processChain tokenGen2 chain (processChain tokenGen1 chain c)).id =
        (processChain tokenGen1 chain c).id ∧
    (processChain tokenGen2 chain (processChain tokenGen1 chain c)).path.length =
        (processChain tokenGen1 chain c).path.length := by
  constructor
  · exact processChain_id tokenGen2 chain _
  · rw [processChain_length, processChain_length, h]
    simp

/-- Witness for C7: refreshing an interdomain connection with a different
token generator keeps the id and the 10-segment path. -/
theorem refresh_preserves_id_and_length_witness :
    (processChain (fun _ => ("t2", 2)) interdomainChain
        (processChain (fun _ => ("t1", 1)) interdomainChain ⟨"1", []⟩)).id =
      (processChain (fun _ => ("t1", 1)) interdomainChain ⟨"1", []⟩).id ∧
    (processChain (fun _ => ("t2", 2)) interdomainChain
        (processChain (fun _ => ("t1", 1)) interdomainChain ⟨"1", []⟩)).path.length =
      (processChain (fun _ => ("t1", 1)) interdomainChain ⟨"1", []⟩).path.length :=
  refresh_preserves_id_and_length (fun _ => ("t1", 1)) (fun _ => ("t2", 2))
    interdomainChain ⟨"1", []⟩ rfl

end Sdk
